import Mathlib

/-!
Verification of the `shors-algorithm` repository against its specification.

The repository's only source file is `src/notebooks/algorithm_overview.ipynb`.
Its executable content is `import numpy as np` and a `QuantumRegister` class
whose `__init__` consists of a docstring only.  The remaining components
(number-theoretic utilities, quantum register simulation, QFT, modular
multiplication operator, order finding, Shor driver) are described by the
notebook's markdown and by the specification but are absent from the source;
following the specification they are modelled here from the spec's words.
Machine integers are modelled as `ℕ`, complex amplitudes as `ℂ`, fallible
operations as `Except`, and the injected randomness source as a pure
seed+counter stream `ℕ → ℕ` (the spec's "pure seed+counter function").
Recursions are written with an explicit structural fuel parameter (always
sufficient, as the unfolding lemmas below prove) so that every classical
definition evaluates by kernel reduction.
-/

namespace Shor

/-- Modelled from the spec (§7): the error kind `InvalidInput`
(`N < 2`, non-invertible modular operator requested, zero modulus,
both gcd arguments zero). -/
inductive Err where
  | invalidInput
deriving DecidableEq

/-- Fuel-driven floor base-2 logarithm: `log2Aux f n` halves `n` until it is
at most `1`; fuel `f ≥ n` always suffices. -/
def log2Aux : ℕ → ℕ → ℕ
  | 0, _ => 0
  | f + 1, n => if n ≤ 1 then 0 else log2Aux f (n / 2) + 1

/-- Modelled from the spec (§4.1): `floor(log2(N))`, used as the upper bound
of the perfect-power exponent scan. -/
def log2 (n : ℕ) : ℕ := log2Aux n n

/-- Modelled from the spec (§4.5): `ceil(log2(N))`, the qubit-count formula. -/
def ceilLog2 (n : ℕ) : ℕ := if n ≤ 1 then 0 else log2 (n - 1) + 1

/-- Fuel-driven core of modular exponentiation by repeated squaring;
fuel `f ≥ e` always suffices. -/
def sqPowAux : ℕ → ℕ → ℕ → ℕ → ℕ
  | 0, _, _, m => 1 % m
  | f + 1, b, e, m =>
    if e = 0 then 1 % m
    else
      let h := sqPowAux f b (e / 2) m
      if e % 2 = 0 then h * h % m else h * h % m * b % m

/-- Modelled from the spec (§4.1): modular exponentiation by repeated
squaring, `O(log exponent)` multiplications (total core, no validity check). -/
def mod_pow_core (b e m : ℕ) : ℕ := sqPowAux e b e m

/-- Modelled from the spec (§4.1): `mod_pow(base, exponent, modulus)`;
fails with `InvalidInput` if `modulus <= 0`. -/
def mod_pow (b e m : ℕ) : Except Err ℕ :=
  if m ≤ 0 then .error .invalidInput else .ok (mod_pow_core b e m)

/-- Modelled from the spec (§4.1): `gcd(x, y)`, the standard Euclidean
algorithm (`Nat.gcd` is exactly the Euclidean recursion
`gcd x y = gcd (y % x) x`); fails with `InvalidInput` if both arguments
are zero. -/
def gcd (x y : ℕ) : Except Err ℕ :=
  if x = 0 ∧ y = 0 then .error .invalidInput else .ok (Nat.gcd x y)

/-- Modelled from the spec (§4.1): the integer `k`-th root test — searches
for `p` with `2 ≤ p ≤ N` and `p ^ k = N`. -/
def kthRootSearch (N k : ℕ) : Option ℕ :=
  (List.range' 2 (N - 1)).find? (fun p => p ^ k == N)

/-- Modelled from the spec (§4.1): `is_perfect_power(N)` returns `(p, k)` with
`p ≥ 2`, `k ≥ 2`, `p ^ k = N` if such a representation exists, scanning
candidate exponents `k` from `2` up to `floor(log2(N))` and testing integer
`k`-th roots; returns none otherwise. -/
def is_perfect_power (N : ℕ) : Option (ℕ × ℕ) :=
  (List.range' 2 (log2 N - 1)).findSome? fun k =>
    (kthRootSearch N k).map fun p => (p, k)

/-- Fuel-driven continued-fraction quotient list of `num / den` (the
Euclidean quotient sequence); fuel `f ≥ den` always suffices. -/
def cfStepsAux : ℕ → ℕ → ℕ → List ℕ
  | 0, _, _ => []
  | f + 1, num, den =>
    if den = 0 then [] else num / den :: cfStepsAux f den (num % den)

/-- Modelled from the spec (§4.1): the continued-fraction expansion
(quotient sequence) of `num / den`. -/
def cfSteps (num den : ℕ) : List ℕ := cfStepsAux den num den

/-- Unbounded convergent recurrence: given the remaining quotients and the
two previous convergents `cur = (p_{i-1}, q_{i-1})`, `prev = (p_{i-2}, q_{i-2})`,
emits `p_i = a_i p_{i-1} + p_{i-2}`, `q_i = a_i q_{i-1} + q_{i-2}`. -/
def convergents : List ℕ → ℕ × ℕ → ℕ × ℕ → List (ℕ × ℕ)
  | [], _, _ => []
  | a :: rest, cur, prev =>
    let nxt := (a * cur.1 + prev.1, a * cur.2 + prev.2)
    nxt :: convergents rest nxt cur

/-- Bounded convergent recurrence: as `convergents`, but terminates early
once the denominator `q_i` exceeds `maxDen` (the offending convergent is
not emitted). -/
def convergentsBounded (maxDen : ℕ) : List ℕ → ℕ × ℕ → ℕ × ℕ → List (ℕ × ℕ)
  | [], _, _ => []
  | a :: rest, cur, prev =>
    let nxt := (a * cur.1 + prev.1, a * cur.2 + prev.2)
    if maxDen < nxt.2 then []
    else nxt :: convergentsBounded maxDen rest nxt cur

/-- Modelled from the spec (§4.1): `continued_fraction_convergents` produces
the finite sequence of convergent pairs `(p_i, q_i)` of the continued-fraction
expansion of `numerator/denominator`, in expansion order, terminating early
once `q_i` exceeds `max_denominator`.  Seeds are the standard
`(p_{-1}, q_{-1}) = (1, 0)` and `(p_{-2}, q_{-2}) = (0, 1)`. -/
def continued_fraction_convergents (num den maxDen : ℕ) : List (ℕ × ℕ) :=
  convergentsBounded maxDen (cfSteps num den) (1, 0) (0, 1)

/-- Modelled from the spec (§4.4): the action of the modular-multiplication
operator `M_a` on a basis index — the permutation `x ↦ (a * x) % N` for
`x < N` and the identity for `x ≥ N` (padding states are not perturbed). -/
def mod_mult_perm (a N x : ℕ) : ℕ :=
  if x < N then a * x % N else x

/-- Modelled from the spec (§4.4): constructing the modular-multiplication
operator; fails with `InvalidInput` if `gcd(a, N) ≠ 1` since the mapping is
then not a bijection. -/
def build_mod_mult_operator (a N : ℕ) : Except Err (ℕ → ℕ) :=
  if Nat.gcd a N = 1 then .ok (mod_mult_perm a N) else .error .invalidInput

/-- Modelled from the spec (§3, §4.6): the result of one driver attempt —
either a verified nontrivial divisor or a tagged retry outcome. -/
inductive FactorResult where
  | factorFound (d : ℕ)
  | retry
deriving DecidableEq

/-- Modelled from the spec (§6, §7): the result of the bounded retry loop —
one factor, or the expected recoverable `ExhaustedRetries` outcome. -/
inductive FactorOutcome where
  | factorFound (d : ℕ)
  | exhaustedRetries
deriving DecidableEq

/-- Modelled from the spec (§4.6 step 7): scan the candidate orders
(smallest first); for each even candidate `r` compute
`gcd(a^(r/2) - 1 mod N, N)` and `gcd(a^(r/2) + 1 mod N, N)` and return the
first nontrivial divisor of `N` found. -/
def tryCandidates (a N : ℕ) : List ℕ → Option ℕ
  | [] => none
  | r :: rest =>
    if r % 2 = 0 then
      let x := mod_pow_core a (r / 2) N
      let d1 := Nat.gcd ((x + N - 1) % N) N
      let d2 := Nat.gcd ((x + 1) % N) N
      if 1 < d1 ∧ d1 < N then some d1
      else if 1 < d2 ∧ d2 < N then some d2
      else tryCandidates a N rest
    else tryCandidates a N rest

/-- Modelled from the spec (§4.5, §4.6): one attempt of the Shor driver.
Steps, in order: `N < 2` fails with `InvalidInput`; even `N` is terminal
`FactorFound(2)`; a perfect power `N = p^k` is terminal `FactorFound(p)`;
otherwise `a` is drawn uniformly from `{2, …, N-1}` using the injected
randomness stream (`g 0`), `d = gcd(a, N) > 1` is terminal `FactorFound(d)`;
otherwise the order-finding orchestrator (§4.5) is run — its statevector
simulation and measurement are abstracted to the measured outcome
`y ∈ [0, 2^m)`, `m = 2*ceil(log2 N)`, as determined by the injected
randomness (`g 1`); candidate orders are the denominators of the
continued-fraction convergents of `y / 2^m` bounded by `N`, and step 7 of
§4.6 scans them; if no candidate yields a nontrivial divisor the attempt is
terminal `Retry`. -/
def factor_once (N : ℕ) (g : ℕ → ℕ) : Except Err FactorResult :=
  if N < 2 then .error .invalidInput
  else if N % 2 = 0 then .ok (.factorFound 2)
  else
    match is_perfect_power N with
    | some (p, _) => .ok (.factorFound p)
    | none =>
      if 1 < Nat.gcd (2 + g 0 % (N - 2)) N then
        .ok (.factorFound (Nat.gcd (2 + g 0 % (N - 2)) N))
      else
        match tryCandidates (2 + g 0 % (N - 2)) N
            ((continued_fraction_convergents (g 1 % 2 ^ (2 * ceilLog2 N))
              (2 ^ (2 * ceilLog2 N)) N).map Prod.snd) with
        | some d => .ok (.factorFound d)
        | none => .ok .retry

/-- Modelled from the spec (§6): `factor(N, rng, max_attempts)` loops
`factor_once` up to `max_attempts` times; an error is surfaced immediately
and never retried; if every attempt yields `Retry` the result is
`ExhaustedRetries`.  Each attempt consumes two values of the randomness
stream, so attempt `i` reads the stream shifted by `2 * i`. -/
def factor (N : ℕ) (g : ℕ → ℕ) : ℕ → Except Err FactorOutcome
  | 0 => .ok .exhaustedRetries
  | t + 1 =>
    match factor_once N g with
    | .error e => .error e
    | .ok (.factorFound d) => .ok (.factorFound d)
    | .ok .retry => factor N (fun i => g (i + 2)) t

/-- Modelled from the spec (§4.3): the phase `e^{2πi/D}` from which the
positive-angle rotations of the quantum Fourier transform are built. -/
noncomputable def zeta (D : ℕ) : ℂ := Complex.exp (2 * Real.pi * Complex.I / D)

/-- Modelled from the spec (§4.3): the conjugated (negated-angle) phase
`e^{-2πi/D}` used by the inverse transform. -/
noncomputable def zetaConj (D : ℕ) : ℂ :=
  Complex.exp (-(2 * Real.pi * Complex.I / D))

/-- Modelled from the spec (§4.3, glossary): `qft(register, qubits)`.  The
missing source's gate ladder (Hadamard on the most significant targeted
qubit, controlled-phase rotations `R_k = diag(1, e^{2πi/2^k})`, repeated down
the qubits, then order-reversing swaps) composes to the discrete Fourier
transform `ψ_j ↦ (1/√(2^n)) Σ_k e^{2πi jk / 2^n} ψ_k` on the `2^n`-dimensional
subspace spanned by the `n` targeted qubits; the register state is given as
`Fin (2^n) → S → ℂ`, where the first index enumerates the targeted qubits'
basis states and `S` indexes the basis states of the untouched qubits
(amplitudes on untouched qubit subspaces combine by tensor structure, so the
transform acts pointwise in `S`). -/
noncomputable def qft {n : ℕ} {S : Type} (psi : Fin (2 ^ n) → S → ℂ) :
    Fin (2 ^ n) → S → ℂ :=
  fun j s =>
    (((Real.sqrt (2 ^ n))⁻¹ : ℝ) : ℂ) *
      ∑ k, zeta (2 ^ n) ^ (j.val * k.val) * psi k s

/-- Modelled from the spec (§4.3): `inverse_qft(register, qubits)` — the same
transform built from the conjugated (negated-angle) phase rotations. -/
noncomputable def inverse_qft {n : ℕ} {S : Type} (psi : Fin (2 ^ n) → S → ℂ) :
    Fin (2 ^ n) → S → ℂ :=
  fun j s =>
    (((Real.sqrt (2 ^ n))⁻¹ : ℝ) : ℂ) *
      ∑ k, zetaConj (2 ^ n) ^ (j.val * k.val) * psi k s

/-- A Python runtime value, as far as the source notebook needs: the
`QuantumRegister` constructor's arguments may be any objects (Python does not
enforce the `int` annotation), and an attribute could hold an integer, a
string, a complex vector (a numpy statevector), or `None`. -/
inductive PyVal where
  | pyInt (i : ℤ)
  | pyStr (s : String)
  | pyCVec (v : List ℂ)
  | pyNone

/-- Translated from the source (`algorithm_overview.ipynb`, cell `8cb8a685`):
a `QuantumRegister` object is its instance attribute dictionary. -/
structure QuantumRegister where
  attrs : List (String × PyVal)

set_option linter.unusedVariables false in
/-- Translated from the source (`algorithm_overview.ipynb`, cell `8cb8a685`):
`QuantumRegister.__init__(self, num_qubits: int, name)` — the body consists
of a docstring only, so construction assigns no attributes, performs no
validation, and raises nothing, for arbitrary argument values. -/
def QuantumRegister.init (num_qubits name : PyVal) :
    Except String QuantumRegister :=
  .ok { attrs := [] }

/-- The statevector amplitudes held by a register, if any attribute holds
one. -/
def QuantumRegister.amplitudes (r : QuantumRegister) : Option (List ℂ) :=
  match r.attrs.lookup "statevector" with
  | some (.pyCVec v) => some v
  | _ => none

/-- The sum of squared amplitude magnitudes of a register's statevector, if
the register holds one. -/
noncomputable def QuantumRegister.sumSqAmplitudes (r : QuantumRegister) :
    Option ℝ :=
  r.amplitudes.map fun v => (v.map Complex.normSq).sum

/-! Supporting lemmas: the fuel-driven recursions compute what they claim. -/

theorem log2Aux_eq (f : ℕ) : ∀ n, n ≤ f → log2Aux f n = Nat.log 2 n := by
  induction f with
  | zero =>
    intro n hn
    interval_cases n
    simp [log2Aux]
  | succ f ih =>
    intro n hn
    by_cases h1 : n ≤ 1
    · interval_cases n <;> simp [log2Aux]
    · have h2 : 2 ≤ n := by omega
      have : log2Aux (f + 1) n = log2Aux f (n / 2) + 1 := by
        simp [log2Aux, h1]
      rw [this, ih (n / 2) (by omega),
        Nat.log_of_one_lt_of_le one_lt_two h2]

theorem log2_eq (n : ℕ) : log2 n = Nat.log 2 n := log2Aux_eq n n le_rfl

theorem sqPowAux_eq (f : ℕ) :
    ∀ b e m, 0 < m → e ≤ f → sqPowAux f b e m = b ^ e % m := by
  induction f with
  | zero =>
    intro b e m _ he
    interval_cases e
    simp [sqPowAux]
  | succ f ih =>
    intro b e m hm he
    by_cases h0 : e = 0
    · simp [sqPowAux, h0]
    · have hrec : sqPowAux f b (e / 2) m = b ^ (e / 2) % m :=
        ih b (e / 2) m hm (by omega)
      by_cases hpar : e % 2 = 0
      · have hsum : e / 2 + e / 2 = e := by omega
        calc sqPowAux (f + 1) b e m = sqPowAux f b (e / 2) m *
              sqPowAux f b (e / 2) m % m := by simp [sqPowAux, h0, hpar]
          _ = b ^ (e / 2) % m * (b ^ (e / 2) % m) % m := by rw [hrec]
          _ = b ^ (e / 2) * b ^ (e / 2) % m := (Nat.mul_mod _ _ _).symm
          _ = b ^ e % m := by rw [← pow_add, hsum]
      · have hsum : e / 2 + e / 2 + 1 = e := by omega
        calc sqPowAux (f + 1) b e m = sqPowAux f b (e / 2) m *
              sqPowAux f b (e / 2) m % m * b % m := by simp [sqPowAux, h0, hpar]
          _ = b ^ (e / 2) % m * (b ^ (e / 2) % m) % m * b % m := by rw [hrec]
          _ = b ^ (e / 2) * b ^ (e / 2) * b % m := by
              rw [← Nat.mul_mod, Nat.mod_mul_mod]
          _ = b ^ e % m := by rw [← pow_add, ← pow_succ, hsum]

theorem mod_pow_core_eq (b e m : ℕ) (hm : 0 < m) :
    mod_pow_core b e m = b ^ e % m :=
  sqPowAux_eq e b e m hm le_rfl

/-! Supporting lemmas for the perfect-power test. -/

theorem kthRootSearch_eq_some {N k p : ℕ} (h : kthRootSearch N k = some p) :
    2 ≤ p ∧ p ^ k = N := by
  have hmem := List.mem_of_find?_eq_some h
  have hp := List.find?_some h
  rw [List.mem_range'_1] at hmem
  exact ⟨hmem.1, by simpa using hp⟩

theorem kthRootSearch_isSome {N k p : ℕ} (hp : 2 ≤ p) (hk0 : k ≠ 0)
    (hN : p ^ k = N) : (kthRootSearch N k).isSome := by
  rw [kthRootSearch, List.find?_isSome]
  have hpN : p ≤ N := hN ▸ Nat.le_self_pow hk0 p
  refine ⟨p, ?_, by simpa using hN⟩
  rw [List.mem_range'_1]
  omega

theorem is_perfect_power_sound {N p k : ℕ}
    (h : is_perfect_power N = some (p, k)) : 2 ≤ p ∧ 2 ≤ k ∧ p ^ k = N := by
  obtain ⟨k', hk'mem, hk'⟩ := List.exists_of_findSome?_eq_some h
  rw [List.mem_range'_1] at hk'mem
  cases hr : kthRootSearch N k' with
  | none => rw [hr] at hk'; simp at hk'
  | some p' =>
    rw [hr] at hk'
    simp only [Option.map_some', Option.some.injEq, Prod.mk.injEq] at hk'
    obtain ⟨hpp, hkk⟩ := hk'
    subst hpp; subst hkk
    obtain ⟨h2p, hpow⟩ := kthRootSearch_eq_some hr
    exact ⟨h2p, hk'mem.1, hpow⟩

theorem is_perfect_power_isSome {N p k : ℕ} (hp : 2 ≤ p) (hk : 2 ≤ k)
    (hN : p ^ k = N) : (is_perfect_power N).isSome := by
  rcases hr : is_perfect_power N with _ | pk
  · exfalso
    rw [is_perfect_power, List.findSome?_eq_none_iff] at hr
    have hN0 : N ≠ 0 := by
      rw [← hN]
      exact (Nat.pow_pos (show 0 < p by omega)).ne'
    have hklog : k ≤ log2 N := by
      rw [log2_eq]
      exact (Nat.pow_le_iff_le_log one_lt_two hN0).mp
        (hN ▸ Nat.pow_le_pow_left hp k)
    have hkmem : k ∈ List.range' 2 (log2 N - 1) := by
      rw [List.mem_range'_1]; omega
    have := hr k hkmem
    rw [Option.map_eq_none'] at this
    have hsome := kthRootSearch_isSome hp (by omega) hN
    rw [this] at hsome
    simp at hsome
  · simp

/-- C6: for every integer `N`, `is_perfect_power(N)` returns some `(p, k)`
with `p ≥ 2`, `k ≥ 2` and `p ^ k = N` exactly when such a representation
exists and none otherwise; in particular `is_perfect_power 12 = none`,
`is_perfect_power 27 = some (3, 3)` and `is_perfect_power 1 = none`. -/
theorem is_perfect_power_spec :
    (∀ N p k, is_perfect_power N = some (p, k) → 2 ≤ p ∧ 2 ≤ k ∧ p ^ k = N) ∧
    (∀ N, (∃ p k, 2 ≤ p ∧ 2 ≤ k ∧ p ^ k = N) → (is_perfect_power N).isSome) ∧
    is_perfect_power 12 = none ∧
    is_perfect_power 27 = some (3, 3) ∧
    is_perfect_power 1 = none := by
  refine ⟨fun N p k h => is_perfect_power_sound h,
    fun N h => ?_, by decide, by decide, by decide⟩
  obtain ⟨p, k, hp, hk, hN⟩ := h
  exact is_perfect_power_isSome hp hk hN

/-! Supporting lemmas for the Shor driver. -/

theorem tryCandidates_sound (a N : ℕ) :
    ∀ l d, tryCandidates a N l = some d → 1 < d ∧ d < N ∧ d ∣ N := by
  intro l
  induction l with
  | nil => intro d h; simp [tryCandidates] at h
  | cons r rest ih =>
    intro d h
    simp only [tryCandidates] at h
    split_ifs at h with he h1 h2
    · cases h
      exact ⟨h1.1, h1.2, Nat.gcd_dvd_right _ _⟩
    · cases h
      exact ⟨h2.1, h2.2, Nat.gcd_dvd_right _ _⟩
    · exact ih d h
    · exact ih d h

theorem factor_once_invalid {N : ℕ} (hN : N < 2) (g : ℕ → ℕ) :
    factor_once N g = .error .invalidInput := by
  simp [factor_once, hN]

theorem factor_once_even {N : ℕ} (hN : 2 ≤ N) (he : N % 2 = 0) (g : ℕ → ℕ) :
    factor_once N g = .ok (.factorFound 2) := by
  simp [factor_once, he]
  omega

theorem factor_once_pp {N p k : ℕ} (ho : N % 2 ≠ 0)
    (hpk : is_perfect_power N = some (p, k)) (g : ℕ → ℕ) :
    factor_once N g = .ok (.factorFound p) := by
  have h2 : ¬N < 2 := by
    have := (is_perfect_power_sound hpk).2.2
    have hp2 := (is_perfect_power_sound hpk).1
    have hk2 := (is_perfect_power_sound hpk).2.1
    have : 2 ^ k ≤ N := this ▸ Nat.pow_le_pow_left hp2 k
    have : 4 ≤ 2 ^ k := by
      calc (4 : ℕ) = 2 ^ 2 := rfl
        _ ≤ 2 ^ k := Nat.pow_le_pow_right (by omega) hk2
    omega
  rw [factor_once, if_neg h2, if_neg ho, hpk]

theorem factor_once_found {N : ℕ} (hN : 2 < N) (g : ℕ → ℕ) (d : ℕ)
    (h : factor_once N g = .ok (.factorFound d)) : 1 < d ∧ d < N ∧ d ∣ N := by
  rw [factor_once, if_neg (by omega)] at h
  by_cases he : N % 2 = 0
  · rw [if_pos he] at h
    cases h
    exact ⟨one_lt_two, hN, Nat.dvd_of_mod_eq_zero he⟩
  · rw [if_neg he] at h
    cases hip : is_perfect_power N with
    | some pk =>
      obtain ⟨p, k⟩ := pk
      rw [hip] at h
      simp only [Except.ok.injEq, FactorResult.factorFound.injEq] at h
      obtain ⟨hp, hk, hpow⟩ := is_perfect_power_sound hip
      refine h ▸ ⟨by omega, ?_, ?_⟩
      · calc p = p ^ 1 := (pow_one p).symm
          _ < p ^ k := Nat.pow_lt_pow_right (by omega) (by omega)
          _ = N := hpow
      · exact hpow ▸ dvd_pow_self p (by omega)
    | none =>
      rw [hip] at h
      set a := 2 + g 0 % (N - 2) with ha
      have haN : a < N := by
        have := Nat.mod_lt (g 0) (show 0 < N - 2 by omega)
        omega
      by_cases hd : 1 < Nat.gcd a N
      · rw [if_pos hd] at h
        cases h
        refine ⟨hd, ?_, Nat.gcd_dvd_right _ _⟩
        calc Nat.gcd a N ≤ a := Nat.gcd_le_left N (by omega)
          _ < N := haN
      · rw [if_neg hd] at h
        cases htc : tryCandidates a N
            ((continued_fraction_convergents (g 1 % 2 ^ (2 * ceilLog2 N))
              (2 ^ (2 * ceilLog2 N)) N).map Prod.snd) with
        | some d' =>
          rw [htc] at h
          simp only [Except.ok.injEq, FactorResult.factorFound.injEq] at h
          exact h ▸ tryCandidates_sound a N _ d' htc
        | none => rw [htc] at h; simp at h

theorem factor_once_ok {N : ℕ} (hN : 2 ≤ N) (g : ℕ → ℕ) :
    ∃ r, factor_once N g = .ok r := by
  rw [factor_once, if_neg (by omega)]
  split
  · exact ⟨_, rfl⟩
  · split
    · exact ⟨_, rfl⟩
    · split
      · exact ⟨_, rfl⟩
      · split
        · exact ⟨_, rfl⟩
        · exact ⟨_, rfl⟩

theorem factor_found {N : ℕ} (hN : 2 < N) :
    ∀ (t : ℕ) (g : ℕ → ℕ) (d : ℕ), factor N g t = .ok (.factorFound d) →
      1 < d ∧ d < N ∧ d ∣ N := by
  intro t
  induction t with
  | zero => intro g d h; simp [factor] at h
  | succ t ih =>
    intro g d h
    rw [factor] at h
    cases hf : factor_once N g with
    | error e => rw [hf] at h; simp at h
    | ok r =>
      rw [hf] at h
      cases r with
      | factorFound d' =>
        simp only [Except.ok.injEq, FactorOutcome.factorFound.injEq] at h
        exact h ▸ factor_once_found hN g d' hf
      | retry => exact ih _ d h

theorem factor_no_error {N : ℕ} (hN : 2 ≤ N) :
    ∀ (t : ℕ) (g : ℕ → ℕ) (e : Err), factor N g t ≠ .error e := by
  intro t
  induction t with
  | zero => intro g e h; simp [factor] at h
  | succ t ih =>
    intro g e h
    rw [factor] at h
    obtain ⟨r, hr⟩ := factor_once_ok hN g
    rw [hr] at h
    cases r with
    | factorFound d => simp at h
    | retry => exact ih _ e h

theorem factor_once_retry_all_zero :
    factor_once 15 (fun _ => 0) = .ok .retry ∧
    factor_once 21 (fun _ => 0) = .ok .retry := by constructor <;> rfl

/-- C4: a single driver attempt follows the deterministic prefix, in order
and independently of the injected randomness: `N < 2` fails with
`InvalidInput`; even `N` is terminal `FactorFound(2)`; a perfect power
`N = p^k` is terminal `FactorFound(p)`.  (Universality over the stream `g`
expresses that no randomness is consumed before these steps.) -/
theorem factor_once_deterministic_first_steps :
    ∀ (N : ℕ) (g : ℕ → ℕ),
      (N < 2 → factor_once N g = .error .invalidInput) ∧
      (2 ≤ N → N % 2 = 0 → factor_once N g = .ok (.factorFound 2)) ∧
      (N % 2 ≠ 0 → ∀ p k, is_perfect_power N = some (p, k) →
        factor_once N g = .ok (.factorFound p)) := by
  intro N g
  exact ⟨fun h => factor_once_invalid h g,
    fun h he => factor_once_even h he g,
    fun ho p k hpk => factor_once_pp ho hpk g⟩

/-- C8: each operation raises `InvalidInput` exactly on its invalid inputs
and never otherwise — `gcd` fails iff both arguments are zero and is
deterministic and total on the other pairs, `mod_pow` fails iff the modulus
is `≤ 0`, the modular-multiplication constructor fails iff `gcd(a, N) ≠ 1` —
and `InvalidInput` is surfaced through the retry loop immediately (never
retried: for valid `N` the loop never yields it). -/
theorem invalid_input_policy :
    (∀ x y, gcd x y = .error .invalidInput ↔ x = 0 ∧ y = 0) ∧
    (∀ x y, ¬(x = 0 ∧ y = 0) → gcd x y = .ok (Nat.gcd x y)) ∧
    (∀ b e m, mod_pow b e m = .error .invalidInput ↔ m ≤ 0) ∧
    (∀ a N, build_mod_mult_operator a N = .error .invalidInput ↔
      Nat.gcd a N ≠ 1) ∧
    (∀ (N : ℕ) (g : ℕ → ℕ) (t : ℕ), N < 2 → 0 < t →
      factor N g t = .error .invalidInput) ∧
    (∀ (N : ℕ) (g : ℕ → ℕ) (t : ℕ) (e : Err), 2 ≤ N →
      factor N g t ≠ .error e) := by
  refine ⟨fun x y => ?_, fun x y h => ?_, fun b e m => ?_, fun a N => ?_,
    fun N g t h1 h2 => ?_, fun N g t e h => factor_no_error h t g e⟩
  · by_cases h : x = 0 ∧ y = 0 <;> simp [gcd, h]
  · simp [gcd, h]
  · by_cases h : m ≤ 0 <;> simp [mod_pow, h]
  · by_cases h : Nat.gcd a N = 1 <;> simp [build_mod_mult_operator, h]
  · obtain ⟨t', rfl⟩ : ∃ t', t = t' + 1 := ⟨t - 1, by omega⟩
    rw [factor, factor_once_invalid h1 g]

/-- C1 (counterexample): the claim quantifies over every seeded randomness
source, but for the all-zero stream every attempt draws `a = 2` (coprime to
both 15 and 21) and measures `y = 0`, whose only convergent denominator is
the odd `r = 1`; all ten attempts yield `Retry`, so `factor` returns
`ExhaustedRetries` and not a factor. -/
theorem factor_seeded_rng_counterexample :
    factor 15 (fun _ => 0) 10 = .ok .exhaustedRetries ∧
    factor 21 (fun _ => 0) 10 = .ok .exhaustedRetries ∧
    ¬(factor 15 (fun _ => 0) 10 = .ok (.factorFound 3) ∨
      factor 15 (fun _ => 0) 10 = .ok (.factorFound 5)) := by
  refine ⟨rfl, rfl, ?_⟩
  have h : factor 15 (fun _ => 0) 10 = .ok .exhaustedRetries := rfl
  rintro (hc | hc) <;> rw [h] at hc <;> simp at hc

/-- C1 (amended): for every seeded randomness stream, `factor 15 g 10`
returns `3`, `5` or `ExhaustedRetries` and `factor 21 g 10` returns `3`,
`7` or `ExhaustedRetries` — any factor returned on these composites is
nontrivial — and there are seeded streams on which each specified composite
does yield a factor: the constant stream `1` draws `a = 3` for both, and the
stream `0, 64, 64, …` factors 15 through the full quantum order-finding path
(`a = 2`, measurement `y = 64`, convergent denominator `r = 4`,
`gcd(2^2 - 1, 15) = 3`). -/
theorem factor_end_to_end_amended :
    (∀ g : ℕ → ℕ,
      (factor 15 g 10 = .ok (.factorFound 3) ∨
        factor 15 g 10 = .ok (.factorFound 5) ∨
        factor 15 g 10 = .ok .exhaustedRetries) ∧
      (factor 21 g 10 = .ok (.factorFound 3) ∨
        factor 21 g 10 = .ok (.factorFound 7) ∨
        factor 21 g 10 = .ok .exhaustedRetries)) ∧
    factor 15 (fun _ => 1) 10 = .ok (.factorFound 3) ∧
    factor 21 (fun _ => 1) 10 = .ok (.factorFound 3) ∧
    factor 15 (fun k => if k = 0 then 0 else 64) 10 = .ok (.factorFound 3) := by
  refine ⟨fun g => ⟨?_, ?_⟩, rfl, rfl, rfl⟩
  · cases hres : factor 15 g 10 with
    | error e => exact absurd hres (factor_no_error (by omega) 10 g e)
    | ok r =>
      cases r with
      | exhaustedRetries => right; right; rfl
      | factorFound d =>
        obtain ⟨h1, h2, h3⟩ := factor_found (by omega) 10 g d hres
        have hd : d = 3 ∨ d = 5 := by
          have key : ∀ d' < 15, 1 < d' → d' ∣ 15 → d' = 3 ∨ d' = 5 := by decide
          exact key d h2 h1 h3
        rcases hd with rfl | rfl
        · left; rfl
        · right; left; rfl
  · cases hres : factor 21 g 10 with
    | error e => exact absurd hres (factor_no_error (by omega) 10 g e)
    | ok r =>
      cases r with
      | exhaustedRetries => right; right; rfl
      | factorFound d =>
        obtain ⟨h1, h2, h3⟩ := factor_found (by omega) 10 g d hres
        have hd : d = 3 ∨ d = 7 := by
          have key : ∀ d' < 21, 1 < d' → d' ∣ 21 → d' = 3 ∨ d' = 7 := by decide
          exact key d h2 h1 h3
        rcases hd with rfl | rfl
        · left; rfl
        · right; left; rfl

/-! Supporting lemmas for the modular-multiplication operator. -/

theorem mod_mult_perm_injOn {a N : ℕ} (hc : Nat.gcd a N = 1) (D : ℕ) :
    Set.InjOn (mod_mult_perm a N) {x | x < D} := by
  intro x hx y hy hxy
  simp only [mod_mult_perm] at hxy
  by_cases cx : x < N <;> by_cases cy : y < N
  · rw [if_pos cx, if_pos cy] at hxy
    have hmod : x ≡ y [MOD N] :=
      Nat.ModEq.cancel_left_of_coprime (by rwa [Nat.gcd_comm] at hc) hxy
    rw [Nat.ModEq] at hmod
    rwa [Nat.mod_eq_of_lt cx, Nat.mod_eq_of_lt cy] at hmod
  · rw [if_pos cx, if_neg cy] at hxy
    have := Nat.mod_lt (a * x) (show 0 < N by omega)
    omega
  · rw [if_neg cx, if_pos cy] at hxy
    have := Nat.mod_lt (a * y) (show 0 < N by omega)
    omega
  · rwa [if_neg cx, if_neg cy] at hxy

theorem mod_mult_perm_mapsTo {a N D : ℕ} (hND : N ≤ D) :
    Set.MapsTo (mod_mult_perm a N) {x | x < D} {x | x < D} := by
  intro x hx
  simp only [Set.mem_setOf_eq] at hx ⊢
  rw [mod_mult_perm]
  by_cases cx : x < N
  · rw [if_pos cx]
    have := Nat.mod_lt (a * x) (show 0 < N by omega)
    omega
  · rwa [if_neg cx]

theorem mod_mult_perm_surjOn {a N D : ℕ} (hc : Nat.gcd a N = 1)
    (hND : N ≤ D) :
    Set.SurjOn (mod_mult_perm a N) {x | x < D} {x | x < D} := by
  intro y hy
  simp only [Set.mem_setOf_eq] at hy
  have := Finset.surj_on_of_inj_on_of_card_le
    (s := Finset.range D) (t := Finset.range D)
    (fun x _ => mod_mult_perm a N x)
    (fun x hx => by
      rw [Finset.mem_range] at hx ⊢
      exact mod_mult_perm_mapsTo hND hx)
    (fun x₁ x₂ hx₁ hx₂ heq => by
      rw [Finset.mem_range] at hx₁ hx₂
      exact mod_mult_perm_injOn hc D hx₁ hx₂ heq)
    le_rfl y (Finset.mem_range.mpr hy)
  obtain ⟨x, hx, hxy⟩ := this
  exact ⟨x, Finset.mem_range.mp hx, hxy.symm⟩

/-- C5: for `gcd(a, N) = 1` and register dimension `2^n ≥ N`, the
modular-multiplication operator acts as `x ↦ (a*x) mod N` on basis indices
`x < N`, as the identity on `x ≥ N`, and is a bijection of `[0, 2^n)`; in
particular for `a = 2, N = 15` it maps `1 → 2 → 4 → 8 → 1` (so the cycle of
`1` has length 4, the order of 2 mod 15), and the constructor accepts
`a = 2, N = 15`. -/
theorem mod_mult_operator_spec :
    (∀ a N n, Nat.gcd a N = 1 → N ≤ 2 ^ n →
      (∀ x, x < N → mod_mult_perm a N x = a * x % N) ∧
      (∀ x, N ≤ x → mod_mult_perm a N x = x) ∧
      Set.BijOn (mod_mult_perm a N) {x | x < 2 ^ n} {x | x < 2 ^ n}) ∧
    mod_mult_perm 2 15 1 = 2 ∧ mod_mult_perm 2 15 2 = 4 ∧
    mod_mult_perm 2 15 4 = 8 ∧ mod_mult_perm 2 15 8 = 1 ∧
    mod_mult_perm 2 15 15 = 15 ∧
    build_mod_mult_operator 2 15 = .ok (mod_mult_perm 2 15) := by
  refine ⟨fun a N n hc hND => ⟨fun x hx => if_pos hx, fun x hx => ?_,
    mod_mult_perm_mapsTo hND, mod_mult_perm_injOn hc (2 ^ n),
    mod_mult_perm_surjOn hc hND⟩, by decide, by decide, by decide, by decide,
    by decide, rfl⟩
  exact if_neg (by omega)

/-! Supporting lemmas for the continued-fraction convergents. -/

theorem convergentsBounded_eq_takeWhile (maxDen : ℕ) :
    ∀ (l : List ℕ) (cur prev : ℕ × ℕ),
      convergentsBounded maxDen l cur prev =
        (convergents l cur prev).takeWhile (fun pq => pq.2 ≤ maxDen) := by
  intro l
  induction l with
  | nil => intro cur prev; rfl
  | cons a rest ih =>
    intro cur prev
    rw [convergents, convergentsBounded]
    simp only [List.takeWhile_cons]
    by_cases h : maxDen < (a * cur.2 + prev.2)
    · rw [if_pos h, if_neg (by simpa using h)]
    · rw [if_neg h, if_pos (by simpa using Nat.not_lt.mp h), ih]

theorem chain'_of_chain {α : Type} {R : α → α → Prop} :
    ∀ {l : List α} {a : α}, List.Chain R a l → List.Chain' R l := by
  intro l a h
  cases l with
  | nil => exact List.chain'_nil
  | cons b t =>
    rw [List.chain_cons] at h
    exact h.2

theorem convergents_chain_det :
    ∀ (l : List ℕ) (cur prev : ℕ × ℕ),
      ((cur.1 * prev.2 : ℤ) - prev.1 * cur.2 = 1 ∨
        (cur.1 * prev.2 : ℤ) - prev.1 * cur.2 = -1) →
      List.Chain
        (fun u v : ℕ × ℕ =>
          (v.1 * u.2 : ℤ) - u.1 * v.2 = 1 ∨ (v.1 * u.2 : ℤ) - u.1 * v.2 = -1)
        cur (convergents l cur prev) := by
  intro l
  induction l with
  | nil => intro cur prev _; rw [convergents]; exact List.Chain.nil
  | cons a rest ih =>
    intro cur prev h
    rw [convergents]
    have hdet : ((a * cur.1 + prev.1 : ℕ) * cur.2 : ℤ) -
        cur.1 * (a * cur.2 + prev.2 : ℕ) =
          -((cur.1 * prev.2 : ℤ) - prev.1 * cur.2) := by
      push_cast
      ring
    refine List.Chain.cons ?_ (ih _ _ ?_)
    · rw [hdet]
      rcases h with h | h <;> rw [h]
      · right; rfl
      · left; rfl
    · show ((a * cur.1 + prev.1 : ℕ) * cur.2 : ℤ) -
          cur.1 * (a * cur.2 + prev.2 : ℕ) = 1 ∨ _
      rw [hdet]
      rcases h with h | h <;> rw [h]
      · right; rfl
      · left; rfl

/-- C7: `continued_fraction_convergents` produces the convergent pairs of
the continued-fraction expansion in expansion order, truncated exactly at
the first denominator exceeding `max_denominator`; adjacent convergents
satisfy the standard-theory determinant identity
`p_{i+1} q_i - p_i q_{i+1} = ±1`; and the convergents of `3/8` bounded by
denominator `10` are `(0,1), (1,2), (1,3), (3,8)`, which include
`(0,1), (1,3), (1,2)`. -/
theorem continued_fraction_convergents_spec :
    continued_fraction_convergents 3 8 10 = [(0, 1), (1, 2), (1, 3), (3, 8)] ∧
    ((0, 1) ∈ continued_fraction_convergents 3 8 10 ∧
      (1, 3) ∈ continued_fraction_convergents 3 8 10 ∧
      (1, 2) ∈ continued_fraction_convergents 3 8 10) ∧
    (∀ num den maxDen,
      continued_fraction_convergents num den maxDen =
        (convergents (cfSteps num den) (1, 0) (0, 1)).takeWhile
          (fun pq => pq.2 ≤ maxDen)) ∧
    (∀ num den maxDen,
      List.Chain'
        (fun u v : ℕ × ℕ =>
          (v.1 * u.2 : ℤ) - u.1 * v.2 = 1 ∨ (v.1 * u.2 : ℤ) - u.1 * v.2 = -1)
        (continued_fraction_convergents num den maxDen)) := by
  refine ⟨by decide, ⟨by decide, by decide, by decide⟩,
    fun num den maxDen => convergentsBounded_eq_takeWhile maxDen _ _ _,
    fun num den maxDen => ?_⟩
  have hchain := convergents_chain_det (cfSteps num den) (1, 0) (0, 1)
    (by left; rfl)
  have hfull : List.Chain'
      (fun u v : ℕ × ℕ =>
        (v.1 * u.2 : ℤ) - u.1 * v.2 = 1 ∨ (v.1 * u.2 : ℤ) - u.1 * v.2 = -1)
      (convergents (cfSteps num den) (1, 0) (0, 1)) :=
    chain'_of_chain hchain
  rw [continued_fraction_convergents, convergentsBounded_eq_takeWhile]
  exact List.Chain'.prefix hfull ( List.takeWhile_prefix _)

/-! Supporting lemmas for the quantum Fourier transform. -/

theorem zeta_ne_zero (D : ℕ) : zeta D ≠ 0 := Complex.exp_ne_zero _

theorem zetaConj_eq_inv (D : ℕ) : zetaConj D = (zeta D)⁻¹ := by
  rw [zeta, zetaConj, Complex.exp_neg]

theorem zeta_primitive (D : ℕ) (hD : D ≠ 0) : IsPrimitiveRoot (zeta D) D :=
  Complex.isPrimitiveRoot_exp D hD

theorem zeta_pow_D (D : ℕ) (hD : D ≠ 0) : zeta D ^ D = 1 :=
  (zeta_primitive D hD).pow_eq_one

theorem sum_zetaConj_mul_zeta (D : ℕ) (hD : D ≠ 0) (j x : Fin D) :
    ∑ k : Fin D, zetaConj D ^ (j.val * k.val) * zeta D ^ (k.val * x.val) =
      if x = j then (D : ℂ) else 0 := by
  have hz := zeta_ne_zero D
  have hterm : ∀ k : Fin D,
      zetaConj D ^ (j.val * k.val) * zeta D ^ (k.val * x.val) =
        (zeta D ^ ((x.val : ℤ) - j.val)) ^ k.val := by
    intro k
    rw [zetaConj_eq_inv, inv_pow, ← zpow_natCast (zeta D) (j.val * k.val),
      ← zpow_neg, ← zpow_natCast (zeta D) (k.val * x.val),
      ← zpow_add₀ hz, ← zpow_natCast (zeta D ^ ((x.val : ℤ) - j.val)),
      ← zpow_mul]
    congr 1
    push_cast
    ring
  rw [Finset.sum_congr rfl (fun k _ => hterm k)]
  set w := zeta D ^ ((x.val : ℤ) - j.val) with hw
  rw [Fin.sum_univ_eq_sum_range (fun i => w ^ i) D]
  by_cases hxj : x = j
  · subst hxj
    simp [hw]
  · rw [if_neg hxj]
    have hw1 : w ≠ 1 := by
      intro hcon
      have hdvd := ((zeta_primitive D hD).zpow_eq_one_iff_dvd
        ((x.val : ℤ) - j.val)).mp hcon
      have hx := x.isLt
      have hj := j.isLt
      have hzero : ((x.val : ℤ) - j.val) = 0 := by
        refine Int.eq_zero_of_abs_lt_dvd hdvd ?_
        rw [abs_lt]
        omega
      exact hxj (Fin.ext (by omega))
    have hwD : w ^ D = 1 := by
      rw [hw, ← zpow_natCast, ← zpow_mul, mul_comm, zpow_mul, zpow_natCast,
        zeta_pow_D D hD, one_zpow]
    rw [geom_sum_eq hw1 D, hwD, sub_self, zero_div]

/-- C3: applying `qft` and then `inverse_qft` over the same qubits returns
the original state — exactly over `ℂ`, hence a fortiori within floating
tolerance — for every register state (basis states and superpositions
alike): the transformed qubits carry the `Fin (2^n)` index and the
spectator type `S` indexes the basis states of every untouched qubit, so
the identity holds pointwise on any enclosing register. -/
theorem inverse_qft_qft_roundtrip {n : ℕ} {S : Type}
    (psi : Fin (2 ^ n) → S → ℂ) : inverse_qft (qft psi) = psi := by
  funext j s
  have hD : (2 ^ n : ℕ) ≠ 0 := (Nat.pow_pos (by norm_num)).ne'
  simp only [inverse_qft, qft]
  set c : ℂ := (((Real.sqrt (2 ^ n))⁻¹ : ℝ) : ℂ) with hc
  have step1 : ∀ k : Fin (2 ^ n),
      zetaConj (2 ^ n) ^ (j.val * k.val) *
          (c * ∑ x, zeta (2 ^ n) ^ (k.val * x.val) * psi x s) =
        c * ∑ x : Fin (2 ^ n),
          zetaConj (2 ^ n) ^ (j.val * k.val) *
            zeta (2 ^ n) ^ (k.val * x.val) * psi x s := by
    intro k
    rw [mul_left_comm]
    congr 1
    rw [Finset.mul_sum]
    exact Finset.sum_congr rfl fun x _ => (mul_assoc _ _ _).symm
  rw [Finset.sum_congr rfl (fun k _ => step1 k), ← Finset.mul_sum,
    Finset.sum_comm]
  have step2 : ∀ x : Fin (2 ^ n),
      ∑ k : Fin (2 ^ n),
          zetaConj (2 ^ n) ^ (j.val * k.val) *
            zeta (2 ^ n) ^ (k.val * x.val) * psi x s =
        (if x = j then ((2 ^ n : ℕ) : ℂ) else 0) * psi x s := by
    intro x
    rw [← Finset.sum_mul, sum_zetaConj_mul_zeta (2 ^ n) hD j x]
  rw [Finset.sum_congr rfl (fun x _ => step2 x)]
  have step3 : ∑ x : Fin (2 ^ n),
      (if x = j then ((2 ^ n : ℕ) : ℂ) else 0) * psi x s =
        ((2 ^ n : ℕ) : ℂ) * psi j s := by
    rw [Finset.sum_congr rfl
      (fun x _ => by rw [ite_mul, zero_mul] :
        ∀ x ∈ Finset.univ, (if x = j then ((2 ^ n : ℕ) : ℂ) else 0) * psi x s
          = if x = j then ((2 ^ n : ℕ) : ℂ) * psi x s else 0)]
    rw [Finset.sum_ite_eq' Finset.univ j fun x => ((2 ^ n : ℕ) : ℂ) * psi x s]
    simp
  rw [step3]
  have hcc : c * c = (((2 ^ n : ℕ) : ℂ))⁻¹ := by
    rw [hc, ← Complex.ofReal_mul, ← mul_inv,
      Real.mul_self_sqrt (by positivity)]
    push_cast
    ring
  rw [← mul_assoc, hcc, inv_mul_cancel_left₀ (Nat.cast_ne_zero.mpr hD)]

/-- C9: for every pair of arguments, `QuantumRegister(num_qubits, name)`
returns an object holding no statevector or amplitude data — the
constructor body is only a docstring, so the all-zero initialization its
docstring describes does not occur. -/
theorem quantum_register_init_stores_nothing :
    ∀ nq nm : PyVal,
      Except.map QuantumRegister.attrs (QuantumRegister.init nq nm) =
        .ok [] :=
  fun _ _ => rfl

/-- C10: `QuantumRegister.__init__` performs no input validation and never
raises: construction succeeds for every value of `num_qubits` (any `PyVal`,
integer or not, despite the `int` annotation) and every value of `name`. -/
theorem quantum_register_init_never_raises :
    ∀ nq nm : PyVal, ∃ r, QuantumRegister.init nq nm = .ok r :=
  fun _ _ => ⟨_, rfl⟩

/-- C2 (code-bug evidence): a freshly constructed register holds no
amplitudes at all, so the invariant "sum of squared amplitude magnitudes
equals 1 after every operation" already fails at creation — the claimed
norm is not `1`; it is undefined. -/
theorem quantum_register_no_norm_invariant :
    ∃ r, QuantumRegister.init (.pyInt 2) (.pyStr "reg") = .ok r ∧
      r.amplitudes = none ∧ r.sumSqAmplitudes ≠ some 1 := by
  refine ⟨⟨[]⟩, rfl, rfl, ?_⟩
  intro h
  simp [QuantumRegister.sumSqAmplitudes, QuantumRegister.amplitudes] at h

end Shor
